import Mathlib

/-!
Shallow embedding of the Page Selection & Document Assembly Engine of
`src/app.py` (a Flask PDF page-extract / merge web application), together
with proofs settling the frozen claims about its specification.

The embedding models:
* the page-spec parser built into the `/extract` route (app.py:128-136),
* `allowed_file` (app.py:28-30),
* `extract_pages` (app.py:33-59) and `merge_pdfs` (app.py:62-88),
* the `/extract` (app.py:97-162) and `/merge` (app.py:165-236) routes,
  with the upload folder modelled as the list of staged file paths so the
  cleanup invariant can be stated.

Machine-independent idealizations: PDF pages are abstracted to `Nat`
identifiers; what `PdfReader` finds at a path is abstracted to
`PdfFile` (missing / corrupt / readable pages); Python `int` is modelled
on ASCII digits with optional sign and single `_` separators (CPython
additionally accepts Unicode decimal digits, which no claim exercises).
-/

namespace PdfApp

/-- Error kinds raised inside the pipeline, modelling the Python
exceptions: `malformedToken` and `emptyResult` are `ValueError`s (the
`int`/unpacking failures of the parsing loop at app.py:128-136 and the
explicit raises at app.py:54 and app.py:83); `readError` models the
non-`ValueError` exceptions raised when opening a missing or unreadable
input file. -/
inductive PdfErr where
  | malformedToken
  | emptyResult
  | readError
deriving DecidableEq, Repr

/-- Whether the modelled exception is a `ValueError`, i.e. caught by the
`except ValueError` branches of the routes (app.py:150, app.py:221). -/
def PdfErr.isValueError : PdfErr → Bool
  | .malformedToken => true
  | .emptyResult => true
  | .readError => false

/-- What `PdfReader` finds at an input path: the path may not exist, may
hold bytes that are not a readable PDF, or may hold a readable PDF with a
list of pages (pages abstracted to `Nat` identifiers). -/
inductive PdfFile where
  | missing
  | corrupt
  | ok (pages : List Nat)
deriving DecidableEq, Repr

/-- One run of decimal digits possibly separated by single underscores,
as accepted by Python `int`; `acc` carries the value read so far. -/
def pyDigitsAux (acc : Nat) : List Char → Option Nat
  | [] => some acc
  | c :: rest =>
    if c.isDigit then pyDigitsAux (10 * acc + (c.toNat - 48)) rest
    else if c = '_' then
      match rest with
      | [] => none
      | d :: rest2 =>
        if d.isDigit then pyDigitsAux (10 * acc + (d.toNat - 48)) rest2 else none
    else none

/-- A digit run must start with a digit (no leading underscore). -/
def pyDigitsRun : List Char → Option Nat
  | [] => none
  | c :: rest => if c.isDigit then pyDigitsAux (c.toNat - 48) rest else none

/-- Python `int(token)` on a whitespace-free token: optional sign followed
by decimal digits (single `_` separators between digits allowed). -/
def pyInt : List Char → Option Int
  | [] => none
  | '+' :: rest => (pyDigitsRun rest).map (fun n => (n : Int))
  | '-' :: rest => (pyDigitsRun rest).map (fun n => -(n : Int))
  | l => (pyDigitsRun l).map (fun n => (n : Int))

/-- Python `text.split(sep)` for a one-character separator: splits at
every occurrence, keeping empty parts. -/
def splitChar (sep : Char) : List Char → List (List Char)
  | [] => [[]]
  | c :: rest =>
    match splitChar sep rest with
    | [] => [[c]]
    | w :: ws => if c = sep then [] :: w :: ws else (c :: w) :: ws

/-- The list Python builds with `list(range(start, end + 1))`
(app.py:132). -/
def pyRange (a b : Int) : List Int :=
  (List.range (b + 1 - a).toNat).map (fun i : Nat => a + (i : Int))

/-- `map(int, parts)` fully consumed: `int` of every part, or the first
`ValueError` (app.py:131). -/
def pyIntAll : List (List Char) → Option (List Int)
  | [] => some []
  | p :: ps =>
    match pyInt p with
    | none => none
    | some n =>
      match pyIntAll ps with
      | none => none
      | some ns => some (n :: ns)

/-- The pages contributed by one token of the page-spec (app.py:130-134):
a token containing `-` is split on `-` and unpacked as
`start, end = map(int, ...)`, contributing `range(start, end + 1)`; any
other token contributes the single page `int(token)`.  `int` failures and
unpack-arity failures are `ValueError`s, surfaced as `malformedToken`. -/
def tokenPagesL (t : List Char) : Except PdfErr (List Int) :=
  if '-' ∈ t then
    match pyIntAll (splitChar '-' t) with
    | none => .error .malformedToken
    | some [a, b] => .ok (pyRange a b)
    | some _ => .error .malformedToken
  else
    match pyInt t with
    | none => .error .malformedToken
    | some n => .ok [n]

/-- The `pages` list accumulated by the parsing loop (app.py:128-134),
before dedup and sort. -/
def rawPagesL : List (List Char) → Except PdfErr (List Int)
  | [] => .ok []
  | t :: ts =>
    match tokenPagesL t with
    | .error e => .error e
    | .ok p =>
      match rawPagesL ts with
      | .error e => .error e
      | .ok rest => .ok (p ++ rest)

/-- Insert into a strictly increasing list, skipping duplicates. -/
def sortedInsert (x : Int) : List Int → List Int
  | [] => [x]
  | y :: ys =>
    if x < y then x :: y :: ys
    else if x = y then y :: ys
    else y :: sortedInsert x ys

/-- Python `sorted(set(l))` (app.py:136): the strictly increasing list of
the distinct elements of `l`. -/
def sortedDedup (l : List Int) : List Int := l.foldr sortedInsert []

/-- Parsing a token list: accumulate each token's pages, then
`sorted(set(pages))` (app.py:128-136). -/
def parseTokensL (ts : List (List Char)) : Except PdfErr (List Int) :=
  (rawPagesL ts).map sortedDedup

/-- `pages_input.replace(',', ' ')` (app.py:129). -/
def pyReplaceComma (l : List Char) : List Char :=
  l.map (fun c => if c = ',' then ' ' else c)

/-- Python `str.split()` with no separator: splits on whitespace runs and
never yields empty words; `acc` holds the current word reversed. -/
def pySplitAux : List Char → List Char → List (List Char)
  | [], acc => if acc = [] then [] else [acc.reverse]
  | c :: rest, acc =>
    if c.isWhitespace then
      if acc = [] then pySplitAux rest [] else acc.reverse :: pySplitAux rest []
    else pySplitAux rest (c :: acc)

/-- Python `str.split()` with no separator. -/
def pySplitWs (l : List Char) : List (List Char) := pySplitAux l []

/-- The token list of a page-spec:
`pages_input.replace(',', ' ').split()` (app.py:129). -/
def tokenizeL (l : List Char) : List (List Char) := pySplitWs (pyReplaceComma l)

/-- Full page-spec parsing as the `/extract` route performs it
(app.py:128-136): tokenize, accumulate each token's pages, then
`sorted(set(pages))`. -/
def parseSpecL (l : List Char) : Except PdfErr (List Int) :=
  parseTokensL (tokenizeL l)

/-- `parseSpecL` on a Lean string. -/
def parseSpec (s : String) : Except PdfErr (List Int) := parseSpecL s.toList

/-- Python `str.strip()` (app.py:107). -/
def pyStrip (l : List Char) : List Char :=
  ((l.dropWhile Char.isWhitespace).reverse.dropWhile Char.isWhitespace).reverse

/-- `ALLOWED_EXTENSIONS = {'pdf'}` (app.py:18). -/
def ALLOWED_EXTENSIONS : List (List Char) := [['p', 'd', 'f']]

/-- Python `str.lower()` on ASCII text. -/
def pyLowerL (l : List Char) : List Char := l.map Char.toLower

/-- `filename.rsplit('.', 1)[1]`: computed by a left-to-right scan
remembering the text after the most recent `'.'`; `acc` is the result if
no further dot occurs. -/
def afterLastDotScan (acc : List Char) : List Char → List Char
  | [] => acc
  | c :: rest =>
    if c = '.' then afterLastDotScan rest rest else afterLastDotScan acc rest

/-- `allowed_file` (app.py:28-30): `'.' in filename and
filename.rsplit('.', 1)[1].lower() in ALLOWED_EXTENSIONS`. -/
def allowed_file (filename : String) : Bool :=
  let cs := filename.toList
  decide ('.' ∈ cs) &&
    decide (pyLowerL (afterLastDotScan cs cs) ∈ ALLOWED_EXTENSIONS)

/-- The page-copy loop of `extract_pages` (app.py:48-51): walk the
requested pages, appending the corresponding source page and counting for
each in-bounds index, skipping the rest. -/
def extractGo (src : List Nat) (total : Nat) :
    List Int → List Nat → Nat → List Nat × Nat
  | [], acc, count => (acc, count)
  | p :: rest, acc, count =>
    if 1 ≤ p ∧ p ≤ (total : Int) then
      extractGo src total rest (acc ++ [src.getD (p - 1).toNat 0]) (count + 1)
    else extractGo src total rest acc count

/-- `extract_pages` (app.py:33-59): open the input, copy the in-bounds
requested pages in order, raise `ValueError` (`emptyResult`) if none was
copied, otherwise write the output file.  `.ok (pages, n)` means an
output file holding exactly `pages` was written and `n` returned; an
error means no output file was written. -/
def extract_pages (input : PdfFile) (pages : List Int) :
    Except PdfErr (List Nat × Nat) :=
  match input with
  | .missing => .error .readError
  | .corrupt => .error .readError
  | .ok src =>
    let r := extractGo src src.length pages [] 0
    if r.2 = 0 then .error .emptyResult else .ok r

/-- The input loop of `merge_pdfs` (app.py:73-80): missing paths are
skipped (`os.path.exists` check), an unreadable file raises from
`PdfReader`, and every page of a readable file is appended and counted. -/
def mergeGo : List PdfFile → List Nat → Nat → Except PdfErr (List Nat × Nat)
  | [], acc, total =>
    if total = 0 then .error .emptyResult else .ok (acc, total)
  | .missing :: rest, acc, total => mergeGo rest acc total
  | .corrupt :: _, _, _ => .error .readError
  | .ok pgs :: rest, acc, total => mergeGo rest (acc ++ pgs) (total + pgs.length)

/-- `merge_pdfs` (app.py:62-88): concatenate the pages of the inputs that
exist, raise `ValueError` (`emptyResult`) when no page was copied, else
write the output and return the total.  `.ok (pages, n)` means an output
file holding exactly `pages` was written and `n` returned; an error means
no output file was written. -/
def merge_pdfs (docs : List PdfFile) : Except PdfErr (List Nat × Nat) :=
  mergeGo docs [] 0

/-- One `/extract` request: presence of the `file` field, the submitted
filename, the raw `pages` form text, and what `PdfReader` will find in
the uploaded bytes. -/
structure ExtractRequest where
  hasFile : Bool
  filename : String
  pagesInput : String
  content : PdfFile

/-- Outcome of the `/extract` route: `rejected` groups the pre-staging
validation failures (flash + redirect to index before any file is saved),
`failed` a pipeline failure after staging, `extracted` the success
redirect to the download. -/
inductive ExtractOutcome where
  | rejected
  | failed (e : PdfErr)
  | extracted (pages : List Nat) (count : Nat)
deriving DecidableEq, Repr

/-- `if os.path.exists(path): os.remove(path)` on the model of the upload
folder as the list of staged paths. -/
def removeIfExists (fs : List String) (p : String) : List String :=
  if p ∈ fs then fs.erase p else fs

/-- `file.save(path)`: a file already staged at the same path is
overwritten in place. -/
def saveFile (fs : List String) (p : String) : List String :=
  if p ∈ fs then fs else fs ++ [p]

/-- The `/extract` route (app.py:97-162), returning the outcome together
with the upload-folder state the request leaves behind (the request
starts with no staged file; the werkzeug filename sanitizer, an external
collaborator, is treated as the identity). -/
def extractRoute (req : ExtractRequest) : ExtractOutcome × List String :=
  if !req.hasFile then (.rejected, [])
  else if req.filename = "" then (.rejected, [])
  else if !allowed_file req.filename then (.rejected, [])
  else
    let pagesInput := pyStrip req.pagesInput.toList
    if pagesInput = [] then (.rejected, [])
    else
      let fs := saveFile [] req.filename
      match parseSpecL pagesInput with
      | .error e => (.failed e, fs.erase req.filename)
      | .ok pages =>
        match extract_pages req.content pages with
        | .error e =>
          if e.isValueError then (.failed e, fs.erase req.filename)
          else (.failed e, removeIfExists fs req.filename)
        | .ok r => (.extracted r.1 r.2, fs.erase req.filename)

/-- One `/merge` request: presence of the `files` field and the submitted
files (filename plus what `PdfReader` will find in the saved bytes). -/
structure MergeRequest where
  hasFiles : Bool
  files : List (String × PdfFile)

/-- Outcome of the `/merge` route. -/
inductive MergeOutcome where
  | rejected
  | extRejected (name : String)
  | noValidFiles
  | failed (e : PdfErr)
  | merged (pages : List Nat) (total : Nat) (fileCount : Nat)
deriving DecidableEq, Repr

/-- The staging loop of the `/merge` route (app.py:185-201): empty
filenames are skipped; a disallowed extension deletes every already-saved
file and aborts; otherwise the file is saved and recorded in
`input_paths` and `saved_files`.  Returns either the rejected name with
the folder state after the abort's cleanup, or the folder state plus the
loop's lists on completion. -/
def stageFiles :
    List (String × PdfFile) → List String → List String → List String →
      List PdfFile →
    (String × List String) ⊕ (List String × List String × List String × List PdfFile)
  | [], fs, ip, sf, docs => .inr (fs, ip, sf, docs)
  | (name, content) :: rest, fs, ip, sf, docs =>
    if name = "" then stageFiles rest fs ip sf docs
    else if !allowed_file name then .inl (name, sf.foldl removeIfExists fs)
    else
      stageFiles rest (saveFile fs name) (ip ++ [name]) (sf ++ [name])
        (docs ++ [content])

/-- The `/merge` route (app.py:165-236), returning the outcome together
with the upload-folder state the request leaves behind.  Duplicate
filenames overwrite each other on disk; the model keeps each upload's
content in `docs` — the staged-path bookkeeping, which the claims
address, is unaffected. -/
def mergeRoute (req : MergeRequest) : MergeOutcome × List String :=
  if !req.hasFiles then (.rejected, [])
  else
    match req.files with
    | [] => (.rejected, [])
    | (n0, _) :: _ =>
      if n0 = "" then (.rejected, [])
      else
        match stageFiles req.files [] [] [] [] with
        | .inl (name, fs1) => (.extRejected name, fs1)
        | .inr (fs, ip, sf, docs) =>
          if ip = [] then (.noValidFiles, fs)
          else
            match merge_pdfs docs with
            | .error e => (.failed e, sf.foldl removeIfExists fs)
            | .ok r => (.merged r.1 r.2 ip.length, ip.foldl removeIfExists fs)

/-- A token that parses as a well-formed `A-B` range: splitting on `-`
yields exactly two parts and both parse as integers under `pyInt`. -/
def wellFormedRange (t : List Char) : Bool :=
  match splitChar '-' t with
  | [sa, sb] => (pyInt sa).isSome && (pyInt sb).isSome
  | _ => false

/-- The requested page indices that survive the bounds check of the copy
loop (app.py:49): exactly those in `[1, total]`. -/
def keptPages (total : Nat) (pages : List Int) : List Int :=
  pages.filter fun p => decide (1 ≤ p ∧ p ≤ (total : Int))

/-- The source page copied for the (in-bounds) 1-based index `p`
(app.py:50: `reader.pages[page_num - 1]`). -/
def pageAt (src : List Nat) (p : Int) : Nat :=
  src.getD (p - 1).toNat 0

/-- The pages a batch entry contributes to a merge: a missing path is
skipped and contributes none, a corrupt file contributes none (it aborts
the merge), a readable file contributes all its pages. -/
def filePages : PdfFile → List Nat
  | .missing => []
  | .corrupt => []
  | .ok pgs => pgs

/-- A separator character of the page-spec tokenizer: a comma (turned
into a space by `replace(',', ' ')`) or whitespace (consumed by
`split()`). -/
def isSepChar (c : Char) : Bool := c = ',' || c.isWhitespace

/-- The suffix of `l` after its last `'.'`, written as the spec describes
it: the longest dot-free suffix. -/
def lastDotSuffix (l : List Char) : List Char :=
  (l.reverse.takeWhile (fun c => c ≠ '.')).reverse

/-! ### Lemmas about `sortedInsert` and `sortedDedup` -/

theorem mem_sortedInsert (x z : Int) (l : List Int) :
    z ∈ sortedInsert x l ↔ z = x ∨ z ∈ l := by
  induction l with
  | nil => simp [sortedInsert]
  | cons y ys ih =>
    simp only [sortedInsert]
    split
    · simp [List.mem_cons]
    · split
      · rename_i h1 h2
        subst h2
        simp only [List.mem_cons]
        tauto
      · simp only [List.mem_cons, ih]
        tauto

theorem sorted_sortedInsert (x : Int) (l : List Int)
    (h : List.Sorted (· < ·) l) : List.Sorted (· < ·) (sortedInsert x l) := by
  induction l with
  | nil => simp [sortedInsert]
  | cons y ys ih =>
    rw [List.sorted_cons] at h
    obtain ⟨hy, hys⟩ := h
    simp only [sortedInsert]
    split
    · rename_i h1
      rw [List.sorted_cons]
      refine ⟨?_, ?_⟩
      · intro b hb
        rcases List.mem_cons.mp hb with rfl | hb
        · exact h1
        · exact lt_trans h1 (hy b hb)
      · rw [List.sorted_cons]
        exact ⟨hy, hys⟩
    · split
      · rename_i h1 h2
        subst h2
        rw [List.sorted_cons]
        exact ⟨hy, hys⟩
      · rename_i h1 h2
        rw [List.sorted_cons]
        refine ⟨?_, ih hys⟩
        intro b hb
        rcases (mem_sortedInsert x b ys).mp hb with rfl | hb
        · omega
        · exact hy b hb

theorem sorted_sortedDedup (l : List Int) :
    List.Sorted (· < ·) (sortedDedup l) := by
  induction l with
  | nil => simp [sortedDedup]
  | cons x xs ih => exact sorted_sortedInsert x _ ih

theorem mem_sortedDedup (z : Int) (l : List Int) :
    z ∈ sortedDedup l ↔ z ∈ l := by
  induction l with
  | nil => simp [sortedDedup]
  | cons x xs ih =>
    show z ∈ sortedInsert x (sortedDedup xs) ↔ _
    rw [mem_sortedInsert]
    simp [ih]

theorem sortedInsert_of_forall_lt (x : Int) (l : List Int)
    (h : ∀ y ∈ l, x < y) : sortedInsert x l = x :: l := by
  cases l with
  | nil => rfl
  | cons y ys =>
    have hxy : x < y := h y (by simp)
    simp [sortedInsert, hxy]

theorem sortedDedup_of_sorted (l : List Int) (h : List.Sorted (· < ·) l) :
    sortedDedup l = l := by
  induction l with
  | nil => rfl
  | cons x xs ih =>
    rw [List.sorted_cons] at h
    show sortedInsert x (sortedDedup xs) = x :: xs
    rw [ih h.2]
    exact sortedInsert_of_forall_lt x xs h.1

theorem sortedDedup_congr_perm (l l' : List Int) (h : l.Perm l') :
    sortedDedup l = sortedDedup l' := by
  apply List.eq_of_perm_of_sorted ?_ (sorted_sortedDedup l) (sorted_sortedDedup l')
  rw [List.perm_ext_iff_of_nodup (sorted_sortedDedup l).nodup
    (sorted_sortedDedup l').nodup]
  intro a
  rw [mem_sortedDedup, mem_sortedDedup]
  exact h.mem_iff

/-! ### Lemmas about `pyRange` -/

theorem mem_pyRange (a b p : Int) : p ∈ pyRange a b ↔ a ≤ p ∧ p ≤ b := by
  unfold pyRange
  simp only [List.mem_map, List.mem_range]
  constructor
  · rintro ⟨i, hi, rfl⟩
    omega
  · intro h
    exact ⟨(p - a).toNat, by omega, by omega⟩

theorem pyRange_sorted (a b : Int) : List.Sorted (· < ·) (pyRange a b) := by
  unfold pyRange
  exact List.Pairwise.map _ (fun i j hij => by omega) (List.pairwise_lt_range _)

theorem pyRange_eq_nil (a b : Int) (h : b < a) : pyRange a b = [] := by
  unfold pyRange
  have h0 : (b + 1 - a).toNat = 0 := by omega
  rw [h0]
  rfl

theorem pyRange_cons (a b : Int) (h : a ≤ b) :
    pyRange a b = a :: pyRange (a + 1) b := by
  unfold pyRange
  have h1 : (b + 1 - a).toNat = (b + 1 - (a + 1)).toNat + 1 := by omega
  rw [h1, List.range_succ_eq_map, List.map_cons, List.map_map]
  simp only [Nat.cast_zero, add_zero]
  refine congrArg _ ?_
  apply List.map_congr_left
  intro i _
  simp only [Function.comp_apply]
  push_cast
  ring

/-! ### Closed forms for the copy loops -/

theorem extractGo_eq (src : List Nat) (total : Nat) (pages : List Int)
    (acc : List Nat) (count : Nat) :
    extractGo src total pages acc count =
      (acc ++ (keptPages total pages).map (pageAt src),
        count + (keptPages total pages).length) := by
  induction pages generalizing acc count with
  | nil => simp [extractGo, keptPages]
  | cons p rest ih =>
    simp only [extractGo]
    split
    · rename_i h
      have hk : keptPages total (p :: rest) = p :: keptPages total rest := by
        simp [keptPages, List.filter_cons, h]
      rw [ih, hk]
      simp [pageAt, List.append_assoc]
      omega
    · rename_i h
      have hk : keptPages total (p :: rest) = keptPages total rest := by
        simp [keptPages, List.filter_cons, h]
      rw [ih, hk]

theorem extract_pages_ok_eq (src : List Nat) (pages : List Int) :
    extract_pages (.ok src) pages =
      if keptPages src.length pages = [] then .error .emptyResult
      else .ok ((keptPages src.length pages).map (pageAt src),
        (keptPages src.length pages).length) := by
  simp only [extract_pages, extractGo_eq, List.nil_append, Nat.zero_add]
  by_cases h : keptPages src.length pages = []
  · simp [h]
  · have hlen : (keptPages src.length pages).length ≠ 0 := by
      simpa [List.length_eq_zero] using h
    simp [h, hlen]

theorem mergeGo_no_corrupt (docs : List PdfFile) (acc : List Nat) (total : Nat)
    (h : PdfFile.corrupt ∉ docs) (hacc : total = acc.length) :
    mergeGo docs acc total =
      if acc ++ (docs.map filePages).flatten = [] then .error .emptyResult
      else .ok (acc ++ (docs.map filePages).flatten,
        (acc ++ (docs.map filePages).flatten).length) := by
  induction docs generalizing acc total with
  | nil =>
    subst hacc
    simp [mergeGo, List.length_eq_zero]
  | cons d rest ih =>
    cases d with
    | missing =>
      have hr : PdfFile.corrupt ∉ rest := fun hm => h (List.mem_cons_of_mem _ hm)
      simpa [mergeGo, filePages] using ih acc total hr hacc
    | corrupt => exact absurd (List.mem_cons_self _ _) h
    | ok pgs =>
      have hr : PdfFile.corrupt ∉ rest := fun hm => h (List.mem_cons_of_mem _ hm)
      have := ih (acc ++ pgs) (total + pgs.length) hr (by simp [hacc])
      simpa [mergeGo, filePages, List.append_assoc] using this

theorem merge_pdfs_no_corrupt (docs : List PdfFile)
    (h : PdfFile.corrupt ∉ docs) :
    merge_pdfs docs =
      if (docs.map filePages).flatten = [] then .error .emptyResult
      else .ok ((docs.map filePages).flatten,
        (docs.map filePages).flatten.length) := by
  simpa [merge_pdfs] using mergeGo_no_corrupt docs [] 0 h rfl

theorem mergeGo_corrupt (docs : List PdfFile) (acc : List Nat) (total : Nat)
    (h : PdfFile.corrupt ∈ docs) :
    mergeGo docs acc total = .error .readError := by
  induction docs generalizing acc total with
  | nil => simp at h
  | cons d rest ih =>
    cases d with
    | missing =>
      have hr : PdfFile.corrupt ∈ rest := by simpa using h
      simpa [mergeGo] using ih acc total hr
    | corrupt => rfl
    | ok pgs =>
      have hr : PdfFile.corrupt ∈ rest := by simpa using h
      simpa [mergeGo] using ih (acc ++ pgs) (total + pgs.length) hr

/-! ### Lemmas about `splitChar`, `pyIntAll`, `tokenPagesL`, `rawPagesL` -/

theorem splitChar_ne_nil (sep : Char) (l : List Char) : splitChar sep l ≠ [] := by
  cases l with
  | nil => simp [splitChar]
  | cons c rest =>
    simp only [splitChar]
    split
    · simp
    · split <;> simp

theorem splitChar_eq_single (sep : Char) (l : List Char) (h : sep ∉ l) :
    splitChar sep l = [l] := by
  induction l with
  | nil => rfl
  | cons c rest ih =>
    have hc : ¬ c = sep := fun hh => h (by simp [hh])
    have hr : sep ∉ rest := fun hh => h (List.mem_cons_of_mem _ hh)
    simp only [splitChar, ih hr]
    simp [hc]

theorem two_le_length_splitChar (sep : Char) (l : List Char) (h : sep ∈ l) :
    2 ≤ (splitChar sep l).length := by
  induction l with
  | nil => simp at h
  | cons c rest ih =>
    simp only [splitChar]
    cases hs : splitChar sep rest with
    | nil => exact absurd hs (splitChar_ne_nil sep rest)
    | cons w ws =>
      by_cases hc : c = sep
      · simp [hc]
      · have hmem : sep ∈ rest := by
          rcases List.mem_cons.mp h with rfl | hm
          · exact absurd rfl hc
          · exact hm
        have := ih hmem
        rw [hs] at this
        simp only [List.length_cons] at this
        simp [hc]
        omega

theorem sep_mem_of_splitChar_pair (sep : Char) (l sa sb : List Char)
    (h : splitChar sep l = [sa, sb]) : sep ∈ l := by
  by_contra hn
  rw [splitChar_eq_single sep l hn] at h
  cases h

theorem pyIntAll_length (ps : List (List Char)) (ns : List Int)
    (h : pyIntAll ps = some ns) : ns.length = ps.length := by
  induction ps generalizing ns with
  | nil =>
    cases h
    rfl
  | cons p rest ih =>
    simp only [pyIntAll] at h
    cases hp : pyInt p with
    | none => rw [hp] at h; cases h
    | some n =>
      rw [hp] at h
      cases hr : pyIntAll rest with
      | none => rw [hr] at h; cases h
      | some ms =>
        rw [hr] at h
        cases h
        simp [ih ms hr]

theorem pyIntAll_cons_some (p : List Char) (ps : List (List Char))
    (ns : List Int) (h : pyIntAll (p :: ps) = some ns) :
    ∃ n ms, pyInt p = some n ∧ pyIntAll ps = some ms ∧ ns = n :: ms := by
  simp only [pyIntAll] at h
  cases hp : pyInt p with
  | none => rw [hp] at h; cases h
  | some n =>
    rw [hp] at h
    cases hr : pyIntAll ps with
    | none => rw [hr] at h; cases h
    | some ms =>
      rw [hr] at h
      cases h
      exact ⟨n, ms, rfl, rfl, rfl⟩

theorem pyIntAll_pair (sa sb : List Char) (a b : Int)
    (hsa : pyInt sa = some a) (hsb : pyInt sb = some b) :
    pyIntAll [sa, sb] = some [a, b] := by
  simp [pyIntAll, hsa, hsb]

theorem tokenPagesL_error_malformed (t : List Char) (e : PdfErr)
    (h : tokenPagesL t = .error e) : e = .malformedToken := by
  unfold tokenPagesL at h
  split at h
  · split at h
    · cases h; rfl
    · cases h
    · cases h; rfl
  · split at h
    · cases h; rfl
    · cases h

theorem rawPagesL_error_malformed (ts : List (List Char)) (e : PdfErr)
    (h : rawPagesL ts = .error e) : e = .malformedToken := by
  induction ts generalizing e with
  | nil => cases h
  | cons t rest ih =>
    simp only [rawPagesL] at h
    split at h
    · rename_i e1 he1
      injection h with h2
      rw [← h2]
      exact tokenPagesL_error_malformed t e1 he1
    · split at h
      · rename_i e2 he2
        injection h with h2
        rw [← h2]
        exact ih e2 he2
      · cases h

theorem rawPagesL_ok_token (ts : List (List Char)) (l : List Int)
    (h : rawPagesL ts = .ok l) : ∀ t ∈ ts, ∃ p, tokenPagesL t = .ok p := by
  induction ts generalizing l with
  | nil => intro t ht; simp at ht
  | cons t0 rest ih =>
    intro t ht
    simp only [rawPagesL] at h
    split at h
    · cases h
    · rename_i p hp
      split at h
      · cases h
      · rename_i r hr
        rcases List.mem_cons.mp ht with rfl | ht2
        · exact ⟨p, hp⟩
        · exact ih r hr t ht2

theorem tokenPagesL_of_bad (t : List Char) (hint : pyInt t = none)
    (hrange : wellFormedRange t = false) :
    tokenPagesL t = .error .malformedToken := by
  unfold tokenPagesL
  split
  · rename_i hdash
    cases hall : pyIntAll (splitChar '-' t) with
    | none => rfl
    | some ints =>
      cases hsp : splitChar '-' t with
      | nil => exact absurd hsp (splitChar_ne_nil '-' t)
      | cons w ws =>
        cases ws with
        | nil =>
          have := two_le_length_splitChar '-' t hdash
          rw [hsp] at this
          simp at this
        | cons w2 ws2 =>
          cases ws2 with
          | nil =>
            rw [hsp] at hall
            obtain ⟨n, ms, hn, hms, hns⟩ := pyIntAll_cons_some _ _ _ hall
            obtain ⟨n2, ms2, hn2, hms2, hms3⟩ := pyIntAll_cons_some _ _ _ hms
            unfold wellFormedRange at hrange
            rw [hsp] at hrange
            simp [hn, hn2] at hrange
          | cons w3 ws3 =>
            have hlen := pyIntAll_length _ _ hall
            rw [hsp] at hlen
            simp only [List.length_cons] at hlen
            cases ints with
            | nil => simp at hlen
            | cons i1 irest =>
              cases irest with
              | nil => simp at hlen
              | cons i2 irest2 =>
                cases irest2 with
                | nil => simp at hlen
                | cons i3 irest3 => rfl
  · rw [hint]

theorem rawPagesL_bad_token (ts : List (List Char)) (t : List Char)
    (ht : t ∈ ts) (hbad : tokenPagesL t = .error .malformedToken) :
    rawPagesL ts = .error .malformedToken := by
  cases hres : rawPagesL ts with
  | ok l =>
    obtain ⟨p, hp⟩ := rawPagesL_ok_token ts l hres t ht
    rw [hbad] at hp
    cases hp
  | error e =>
    rw [rawPagesL_error_malformed ts e hres]

theorem rawPagesL_perm (ts ts' : List (List Char)) (h : ts.Perm ts')
    (l : List Int) (hok : rawPagesL ts = .ok l) :
    ∃ l', rawPagesL ts' = .ok l' ∧ l.Perm l' := by
  induction h generalizing l with
  | nil => exact ⟨l, hok, List.Perm.refl l⟩
  | cons x hp ih =>
    simp only [rawPagesL] at hok ⊢
    split at hok
    · cases hok
    · rename_i p hpx
      split at hok
      · cases hok
      · rename_i r hr
        cases hok
        obtain ⟨r', hr', hperm⟩ := ih r hr
        simp only [hr']
        exact ⟨p ++ r', rfl, List.Perm.append_left p hperm⟩
  | swap x y t =>
    simp only [rawPagesL] at hok ⊢
    cases hy : tokenPagesL y with
    | error e =>
      simp only [hy] at hok
      cases hok
    | ok py =>
      cases hx : tokenPagesL x with
      | error e =>
        simp only [hy, hx] at hok
        cases hok
      | ok px =>
        cases hrt : rawPagesL t with
        | error e =>
          simp only [hy, hx, hrt] at hok
          cases hok
        | ok r =>
          simp only [hy, hx, hrt] at hok ⊢
          cases hok
          refine ⟨px ++ (py ++ r), rfl, ?_⟩
          have h1 : py ++ (px ++ r) = (py ++ px) ++ r :=
            (List.append_assoc _ _ _).symm
          have h3 : (px ++ py) ++ r = px ++ (py ++ r) :=
            List.append_assoc _ _ _
          rw [h1, ← h3]
          exact List.Perm.append_right r List.perm_append_comm
  | trans h1 h2 ih1 ih2 =>
    obtain ⟨m, hm, p1⟩ := ih1 l hok
    obtain ⟨m', hm', p2⟩ := ih2 m hm
    exact ⟨m', hm', p1.trans p2⟩

theorem parseTokensL_perm (ts ts' : List (List Char)) (h : ts.Perm ts')
    (l : List Int) (hok : parseTokensL ts = .ok l) : parseTokensL ts' = .ok l := by
  unfold parseTokensL at hok ⊢
  cases hraw : rawPagesL ts with
  | error e =>
    rw [hraw] at hok
    cases hok
  | ok raw =>
    rw [hraw] at hok
    simp only [Except.map] at hok
    cases hok
    obtain ⟨raw', hraw', hperm⟩ := rawPagesL_perm ts ts' h raw hraw
    rw [hraw']
    simp only [Except.map]
    rw [sortedDedup_congr_perm raw' raw hperm.symm]

theorem parseSpecL_ok_sorted (l : List Char) (pages : List Int)
    (h : parseSpecL l = .ok pages) : List.Sorted (· < ·) pages := by
  unfold parseSpecL parseTokensL at h
  cases hraw : rawPagesL (tokenizeL l) with
  | error e =>
    rw [hraw] at h
    cases h
  | ok raw =>
    rw [hraw] at h
    simp only [Except.map] at h
    cases h
    exact sorted_sortedDedup raw

/-! ### Evaluation of the spec `"1-9999"` -/

theorem tokenPagesL_1_9999 :
    tokenPagesL "1-9999".toList = .ok (pyRange 1 9999) := by
  rfl

theorem parseSpecL_1_9999 :
    parseSpecL "1-9999".toList = .ok (pyRange 1 9999) := by
  have htok : tokenizeL "1-9999".toList = ["1-9999".toList] := by rfl
  unfold parseSpecL parseTokensL
  rw [htok]
  simp only [rawPagesL, tokenPagesL_1_9999, List.append_nil, Except.map]
  rw [sortedDedup_of_sorted _ (pyRange_sorted 1 9999)]

theorem keptPages_1_9999 : keptPages 5 (pyRange 1 9999) = [1, 2, 3, 4, 5] := by
  have e1 : pyRange 1 9999 = 1 :: pyRange 2 9999 := by
    rw [pyRange_cons 1 9999 (by norm_num)]; norm_num
  have e2 : pyRange 2 9999 = 2 :: pyRange 3 9999 := by
    rw [pyRange_cons 2 9999 (by norm_num)]; norm_num
  have e3 : pyRange 3 9999 = 3 :: pyRange 4 9999 := by
    rw [pyRange_cons 3 9999 (by norm_num)]; norm_num
  have e4 : pyRange 4 9999 = 4 :: pyRange 5 9999 := by
    rw [pyRange_cons 4 9999 (by norm_num)]; norm_num
  have e5 : pyRange 5 9999 = 5 :: pyRange 6 9999 := by
    rw [pyRange_cons 5 9999 (by norm_num)]; norm_num
  unfold keptPages
  rw [e1, e2, e3, e4, e5]
  simp only [List.filter_cons, decide_eq_true_eq]
  norm_num
  intro p hp h1p
  have hb := (mem_pyRange 6 9999 p).mp hp
  omega

/-! ### Lemmas about the tokenizer -/

theorem pySplitAux_ne_nil (l : List Char) :
    ∀ acc, ∀ w ∈ pySplitAux l acc, w ≠ [] := by
  induction l with
  | nil =>
    intro acc w hw
    simp only [pySplitAux] at hw
    split at hw
    · simp at hw
    · rename_i hacc
      simp only [List.mem_singleton] at hw
      subst hw
      simpa using hacc
  | cons c rest ih =>
    intro acc w hw
    simp only [pySplitAux] at hw
    split at hw
    · split at hw
      · exact ih [] w hw
      · rename_i hacc
        rcases List.mem_cons.mp hw with rfl | hw2
        · simpa using hacc
        · exact ih [] w hw2
    · exact ih (c :: acc) w hw

theorem pySplitAux_append_ws (w : Char) (hw : w.isWhitespace = true)
    (l : List Char) :
    ∀ acc, pySplitAux (l ++ [w]) acc = pySplitAux l acc := by
  induction l with
  | nil =>
    intro acc
    by_cases hacc : acc = []
    · subst hacc
      simp [pySplitAux, hw]
    · simp [pySplitAux, hw, hacc]
  | cons c rest ih =>
    intro acc
    simp only [List.cons_append, pySplitAux]
    by_cases hc : c.isWhitespace
    · by_cases hacc : acc = [] <;> simp [hc, hacc, ih]
    · simp [hc, ih]

theorem pySplitAux_ws_cons (c : Char) (hc : c.isWhitespace = true)
    (l acc : List Char) :
    pySplitAux (c :: l) acc =
      if acc = [] then pySplitAux l [] else acc.reverse :: pySplitAux l [] := by
  simp [pySplitAux, hc]

theorem pySplitAux_double_ws (c c' : Char) (hc : c.isWhitespace = true)
    (hc' : c'.isWhitespace = true) (l2 : List Char) :
    ∀ l1 acc, pySplitAux (l1 ++ c :: c' :: l2) acc =
      pySplitAux (l1 ++ c :: l2) acc := by
  intro l1
  induction l1 with
  | nil =>
    intro acc
    simp only [List.nil_append]
    rw [pySplitAux_ws_cons c hc (c' :: l2) acc, pySplitAux_ws_cons c hc l2 acc,
      pySplitAux_ws_cons c' hc' l2 [], if_pos rfl]
  | cons d rest ih =>
    intro acc
    simp only [List.cons_append, pySplitAux]
    by_cases hd : d.isWhitespace
    · by_cases hacc : acc = [] <;> simp [hd, hacc, ih]
    · simp [hd, ih]

theorem replChar_ws (c : Char) (h : isSepChar c = true) :
    (if c = ',' then ' ' else c).isWhitespace = true := by
  by_cases hc : c = ','
  · rw [if_pos hc]
    decide
  · rw [if_neg hc]
    simp only [isSepChar, Bool.or_eq_true, decide_eq_true_eq] at h
    rcases h with h1 | h2
    · exact absurd h1 hc
    · exact h2

theorem tokenizeL_ne_nil_tokens (l : List Char) : [] ∉ tokenizeL l := by
  intro hmem
  exact pySplitAux_ne_nil (pyReplaceComma l) [] [] hmem rfl

theorem tokenizeL_cons_sep (c : Char) (l : List Char) (h : isSepChar c = true) :
    tokenizeL (c :: l) = tokenizeL l := by
  unfold tokenizeL pySplitWs pyReplaceComma
  simp only [List.map_cons]
  simp [pySplitAux, replChar_ws c h]

theorem tokenizeL_append_sep (c : Char) (l : List Char) (h : isSepChar c = true) :
    tokenizeL (l ++ [c]) = tokenizeL l := by
  unfold tokenizeL pySplitWs pyReplaceComma
  rw [List.map_append]
  simp only [List.map_cons, List.map_nil]
  exact pySplitAux_append_ws _ (replChar_ws c h) _ []

theorem tokenizeL_double_sep (c c' : Char) (l1 l2 : List Char)
    (h : isSepChar c = true) (h' : isSepChar c' = true) :
    tokenizeL (l1 ++ c :: c' :: l2) = tokenizeL (l1 ++ c :: l2) := by
  unfold tokenizeL pySplitWs pyReplaceComma
  rw [List.map_append, List.map_append]
  simp only [List.map_cons]
  exact pySplitAux_double_ws _ _ (replChar_ws c h) (replChar_ws c' h') _ _ []

/-! ### Lemmas about `allowed_file` -/

theorem takeWhile_append_of_exists (p : Char → Bool) (l l2 : List Char)
    (h : ∃ c ∈ l, p c = false) :
    (l ++ l2).takeWhile p = l.takeWhile p := by
  induction l with
  | nil => simp at h
  | cons c rest ih =>
    by_cases hc : p c = true
    · obtain ⟨d, hd, hdp⟩ := h
      rcases List.mem_cons.mp hd with rfl | hd2
      · rw [hc] at hdp
        cases hdp
      · simp [List.takeWhile_cons, hc, ih ⟨d, hd2, hdp⟩]
    · simp [List.takeWhile_cons, hc]

theorem takeWhile_append_of_forall (p : Char → Bool) (l l2 : List Char)
    (h : ∀ c ∈ l, p c = true) :
    (l ++ l2).takeWhile p = l ++ l2.takeWhile p := by
  induction l with
  | nil => simp
  | cons c rest ih =>
    have hc := h c (by simp)
    simp [List.takeWhile_cons, hc,
      ih (fun d hd => h d (List.mem_cons_of_mem _ hd))]

theorem afterLastDotScan_spec (l : List Char) :
    ∀ acc, afterLastDotScan acc l =
      if '.' ∈ l then lastDotSuffix l else acc := by
  induction l with
  | nil =>
    intro acc
    simp [afterLastDotScan]
  | cons c rest ih =>
    intro acc
    by_cases hc : c = '.'
    · subst hc
      have hstep : afterLastDotScan acc ('.' :: rest) = afterLastDotScan rest rest := by
        simp [afterLastDotScan]
      rw [hstep, ih rest, if_pos (List.mem_cons_self '.' rest)]
      by_cases hr : '.' ∈ rest
      · rw [if_pos hr]
        have hex : ∃ x ∈ rest.reverse,
            (fun c => decide (c ≠ '.')) x = false :=
          ⟨'.', by simpa using hr, by simp⟩
        unfold lastDotSuffix
        rw [List.reverse_cons, takeWhile_append_of_exists _ _ _ hex]
      · rw [if_neg hr]
        have hall : ∀ x ∈ rest.reverse,
            (fun c => decide (c ≠ '.')) x = true := by
          intro d hd
          simp only [decide_eq_true_eq]
          intro hdd
          exact hr (by simpa [hdd] using hd)
        unfold lastDotSuffix
        rw [List.reverse_cons, takeWhile_append_of_forall _ _ _ hall]
        simp
    · have hstep : afterLastDotScan acc (c :: rest) = afterLastDotScan acc rest := by
        simp [afterLastDotScan, hc]
      rw [hstep, ih acc]
      by_cases hr : '.' ∈ rest
      · rw [if_pos hr, if_pos (List.mem_cons_of_mem _ hr)]
        have hex : ∃ x ∈ rest.reverse,
            (fun c => decide (c ≠ '.')) x = false :=
          ⟨'.', by simpa using hr, by simp⟩
        unfold lastDotSuffix
        rw [List.reverse_cons, takeWhile_append_of_exists _ _ _ hex]
      · rw [if_neg hr, if_neg ?_]
        intro hmem
        rcases List.mem_cons.mp hmem with h1 | h2
        · exact hc h1.symm
        · exact hr h2

theorem allowed_file_iff (f : String) :
    allowed_file f = true ↔
      '.' ∈ f.toList ∧ pyLowerL (lastDotSuffix f.toList) = ['p', 'd', 'f'] := by
  simp only [allowed_file, Bool.and_eq_true, decide_eq_true_eq]
  constructor
  · rintro ⟨h1, h2⟩
    refine ⟨h1, ?_⟩
    rw [afterLastDotScan_spec, if_pos h1] at h2
    simp only [ALLOWED_EXTENSIONS, List.mem_singleton] at h2
    exact h2
  · rintro ⟨h1, h2⟩
    refine ⟨h1, ?_⟩
    rw [afterLastDotScan_spec, if_pos h1]
    simp only [ALLOWED_EXTENSIONS, List.mem_singleton]
    exact h2

/-! ### Lemmas about the staged-upload bookkeeping -/

theorem removeIfExists_eq_erase (fs : List String) (p : String) :
    removeIfExists fs p = fs.erase p := by
  unfold removeIfExists
  split
  · rfl
  · rename_i h
    rw [List.erase_of_not_mem h]

theorem foldl_removeIfExists_nil (sf : List String) :
    ∀ fs : List String, fs.Nodup → (∀ p ∈ fs, p ∈ sf) →
      sf.foldl removeIfExists fs = [] := by
  induction sf with
  | nil =>
    intro fs hnd hsub
    cases fs with
    | nil => rfl
    | cons a as => exact absurd (hsub a (by simp)) (by simp)
  | cons s rest ih =>
    intro fs hnd hsub
    rw [List.foldl_cons, removeIfExists_eq_erase]
    apply ih
    · exact hnd.erase s
    · intro p hp
      rw [List.Nodup.mem_erase_iff hnd] at hp
      rcases List.mem_cons.mp (hsub p hp.2) with h1 | h2
      · exact absurd h1 hp.1
      · exact h2

theorem saveFile_nodup (fs : List String) (p : String) (h : fs.Nodup) :
    (saveFile fs p).Nodup := by
  unfold saveFile
  split
  · exact h
  · rename_i hp
    rw [List.nodup_append]
    exact ⟨h, List.nodup_singleton p, by simp [List.disjoint_singleton, hp]⟩

theorem mem_saveFile (fs : List String) (p q : String)
    (h : q ∈ saveFile fs p) : q ∈ fs ∨ q = p := by
  unfold saveFile at h
  split at h
  · exact Or.inl h
  · rcases List.mem_append.mp h with h1 | h2
    · exact Or.inl h1
    · simp at h2
      exact Or.inr h2

theorem stageFiles_inl (files : List (String × PdfFile)) :
    ∀ fs ip sf docs name fs1,
      fs.Nodup → (∀ p ∈ fs, p ∈ sf) →
      stageFiles files fs ip sf docs = .inl (name, fs1) → fs1 = [] := by
  induction files with
  | nil =>
    intro fs ip sf docs name fs1 _ _ h
    cases h
  | cons f rest ih =>
    intro fs ip sf docs name fs1 hnd hsub h
    obtain ⟨n, content⟩ := f
    simp only [stageFiles] at h
    split at h
    · exact ih fs ip sf docs name fs1 hnd hsub h
    · split at h
      · injection h with h2
        have hsnd := congrArg Prod.snd h2
        simp only at hsnd
        rw [← hsnd]
        exact foldl_removeIfExists_nil sf fs hnd hsub
      · refine ih _ _ _ _ name fs1 (saveFile_nodup fs n hnd) ?_ h
        intro p hp
        rcases mem_saveFile fs n p hp with h1 | h2
        · exact List.mem_append_left _ (hsub p h1)
        · subst h2
          exact List.mem_append_right _ (by simp)

theorem stageFiles_inr (files : List (String × PdfFile)) :
    ∀ fs ip sf docs fs2 ip2 sf2 docs2,
      fs.Nodup → (∀ p ∈ fs, p ∈ sf) → ip = sf →
      stageFiles files fs ip sf docs = .inr (fs2, ip2, sf2, docs2) →
      fs2.Nodup ∧ (∀ p ∈ fs2, p ∈ sf2) ∧ ip2 = sf2 := by
  induction files with
  | nil =>
    intro fs ip sf docs fs2 ip2 sf2 docs2 hnd hsub hip h
    cases h
    exact ⟨hnd, hsub, hip⟩
  | cons f rest ih =>
    intro fs ip sf docs fs2 ip2 sf2 docs2 hnd hsub hip h
    obtain ⟨n, content⟩ := f
    simp only [stageFiles] at h
    split at h
    · exact ih fs ip sf docs fs2 ip2 sf2 docs2 hnd hsub hip h
    · split at h
      · cases h
      · refine ih _ _ _ _ fs2 ip2 sf2 docs2 (saveFile_nodup fs n hnd) ?_
          (by rw [hip]) h
        intro p hp
        rcases mem_saveFile fs n p hp with h1 | h2
        · exact List.mem_append_left _ (hsub p h1)
        · subst h2
          exact List.mem_append_right _ (by simp)

theorem mergeGo_ok_pos (docs : List PdfFile) (acc : List Nat) (total : Nat)
    (r : List Nat × Nat) (hacc : total = acc.length)
    (h : mergeGo docs acc total = .ok r) : r.2 = r.1.length ∧ 0 < r.2 := by
  induction docs generalizing acc total with
  | nil =>
    simp only [mergeGo] at h
    split at h
    · exact absurd h (by simp)
    · rename_i htot
      cases h
      exact ⟨hacc, Nat.pos_of_ne_zero htot⟩
  | cons d rest ih =>
    cases d with
    | missing => exact ih acc total hacc h
    | corrupt => simp [mergeGo] at h
    | ok pgs => exact ih (acc ++ pgs) (total + pgs.length) (by simp [hacc]) h

theorem parseSpecL_bad_token (l t : List Char) (ht : t ∈ tokenizeL l)
    (hint : pyInt t = none) (hrange : wellFormedRange t = false) :
    parseSpecL l = .error .malformedToken := by
  unfold parseSpecL parseTokensL
  rw [rawPagesL_bad_token (tokenizeL l) t ht (tokenPagesL_of_bad t hint hrange)]
  rfl

/-! ## The claims -/

/-- C1: for every extract or merge request, every staged upload file the
pipeline creates in the upload folder is deleted before the request
completes, on the success path and on every failure path (parse error,
zero-page result, codec/extraction error, per-file extension rejection in
a merge batch); no staged artifact survives the request. -/
theorem claim1_cleanup_invariant :
    (∀ req : ExtractRequest, (extractRoute req).2 = []) ∧
    (∀ req : MergeRequest, (mergeRoute req).2 = []) := by
  constructor
  · intro req
    have hsave : saveFile [] req.filename = [req.filename] := by
      simp [saveFile]
    simp only [extractRoute]
    split
    · rfl
    · split
      · rfl
      · split
        · rfl
        · split
          · rfl
          · split
            · simp [hsave]
            · split
              · split
                · simp [hsave]
                · simp [hsave, removeIfExists_eq_erase]
              · simp [hsave]
  · intro req
    simp only [mergeRoute]
    split
    · rfl
    · split
      · rfl
      · split
        · rfl
        · split
          · rename_i name fs1 hstage
            exact stageFiles_inl req.files [] [] [] [] name fs1
              List.nodup_nil (by simp) hstage
          · rename_i fs ip sf docs hstage
            obtain ⟨hnd, hsub, hip⟩ := stageFiles_inr req.files [] [] [] []
              fs ip sf docs List.nodup_nil (by simp) rfl hstage
            split
            · rename_i hipnil
              cases fs with
              | nil => rfl
              | cons a as =>
                have ha := hsub a (List.mem_cons_self a as)
                rw [← hip, hipnil] at ha
                simp at ha
            · split
              · exact foldl_removeIfExists_nil sf fs hnd hsub
              · show ip.foldl removeIfExists fs = []
                rw [hip]
                exact foldl_removeIfExists_nil sf fs hnd hsub

/-- C2 counterexample: parsing "5-2" does not reject the spec — no
InvalidRange error exists in the code.  The reversed range parses
successfully contributing zero pages, and in "5-2,1" it silently
disappears, leaving [1]. -/
theorem claim2_invalid_range_counterexample :
    parseSpec "5-2" = .ok [] ∧ parseSpec "5-2,1" = .ok [1] := by
  constructor
  · rfl
  · rfl

/-- C2 (amended): a range token `A-B` whose two bounds parse as integers
with `A > B` silently contributes zero pages — parsing does not fail with
InvalidRange (no such error exists); a spec that consequently selects no
pages makes the request fail later with the empty-result ValueError
instead. -/
theorem claim2_reversed_range_contributes_nothing :
    (∀ (t sa sb : List Char) (a b : Int), splitChar '-' t = [sa, sb] →
      pyInt sa = some a → pyInt sb = some b → b < a →
      tokenPagesL t = .ok []) ∧
    (extractRoute ⟨true, "doc.pdf", "5-2", .ok [10, 20, 30, 40, 50]⟩).1 =
      .failed .emptyResult := by
  constructor
  · intro t sa sb a b hsp hsa hsb hba
    have hdash : '-' ∈ t := sep_mem_of_splitChar_pair '-' t sa sb hsp
    unfold tokenPagesL
    rw [if_pos hdash, hsp]
    simp only [pyIntAll_pair sa sb a b hsa hsb]
    rw [pyRange_eq_nil a b hba]
  · rfl

/-- C2 witness: the reversed range token "5-2" contributes zero pages. -/
theorem claim2_witness : tokenPagesL "5-2".toList = .ok [] :=
  claim2_reversed_range_contributes_nothing.1 "5-2".toList ['5'] ['2'] 5 2
    (by decide) (by decide) (by decide) (by decide)

/-- C3 counterexample: merging [A(valid), corrupt, C(valid)] does not
skip the corrupt input — opening it raises, the whole merge fails, and
the claimed A-plus-C output is not produced. -/
theorem claim3_corrupt_not_skipped_counterexample :
    merge_pdfs [.ok [1], .corrupt, .ok [2]] = .error .readError ∧
    merge_pdfs [.ok [1], .corrupt, .ok [2]] ≠ .ok ([1, 2], 2) := by
  constructor
  · rfl
  · intro h
    have h2 : Except.error PdfErr.readError =
        Except.ok (([1, 2] : List Nat), 2) := by
      rw [← h]
      rfl
    cases h2

/-- C3 (amended): an input that is missing is skipped rather than failing
the whole merge, and the output contains exactly the pages of the inputs
that opened, in batch order; but an input that is corrupt fails the whole
merge with a read error rather than being skipped (and the result carries
only the pages and the total, no record of skipped inputs). -/
theorem claim3_merge_skips_missing_only :
    (∀ docs : List PdfFile, PdfFile.corrupt ∉ docs →
      (docs.map filePages).flatten ≠ [] →
      merge_pdfs docs = .ok ((docs.map filePages).flatten,
        (docs.map filePages).flatten.length)) ∧
    (∀ docs : List PdfFile, PdfFile.corrupt ∈ docs →
      merge_pdfs docs = .error .readError) := by
  constructor
  · intro docs hnc hne
    rw [merge_pdfs_no_corrupt docs hnc, if_neg hne]
  · intro docs hc
    exact mergeGo_corrupt docs [] 0 hc

/-- C3 witness: merging [A = [1], missing, C = [2]] yields A's and C's
pages in order; a corrupt entry fails the merge. -/
theorem claim3_witness :
    merge_pdfs [.ok [1], .missing, .ok [2]] = .ok ([1, 2], 2) ∧
    merge_pdfs [.corrupt] = .error .readError :=
  ⟨claim3_merge_skips_missing_only.1 [.ok [1], .missing, .ok [2]]
      (by decide) (by decide),
   claim3_merge_skips_missing_only.2 [.corrupt] (by decide)⟩

/-- C4: neither extraction nor merge ever finalizes a zero-page output:
when the in-bounds page selection is empty `extract_pages` fails with the
empty-result error before writing; when no input contributes a page (and
none aborts the read) `merge_pdfs` fails likewise; and every successful
result holds at least one page. -/
theorem claim4_no_zero_page_output :
    (∀ (src : List Nat) (pages : List Int),
      keptPages src.length pages = [] →
      extract_pages (.ok src) pages = .error .emptyResult) ∧
    (∀ docs : List PdfFile, (∀ d ∈ docs, d = .missing ∨ d = .ok []) →
      merge_pdfs docs = .error .emptyResult) ∧
    (∀ (input : PdfFile) (pages : List Int) (r : List Nat × Nat),
      extract_pages input pages = .ok r → r.1 ≠ [] ∧ 0 < r.2) ∧
    (∀ (docs : List PdfFile) (r : List Nat × Nat),
      merge_pdfs docs = .ok r → r.1 ≠ [] ∧ 0 < r.2) := by
  refine ⟨?_, ?_, ?_, ?_⟩
  · intro src pages h
    rw [extract_pages_ok_eq, if_pos h]
  · intro docs h
    have hnc : PdfFile.corrupt ∉ docs := by
      intro hc
      rcases h _ hc with h1 | h1 <;> cases h1
    have hfl : (docs.map filePages).flatten = [] := by
      rw [List.flatten_eq_nil_iff]
      intro l hl
      rw [List.mem_map] at hl
      obtain ⟨d, hd, rfl⟩ := hl
      rcases h d hd with rfl | rfl <;> rfl
    rw [merge_pdfs_no_corrupt docs hnc, if_pos hfl]
  · intro input pages r h
    cases input with
    | missing => cases h
    | corrupt => cases h
    | ok src =>
      rw [extract_pages_ok_eq] at h
      split at h
      · cases h
      · rename_i hne
        cases h
        refine ⟨?_, ?_⟩
        · simpa [List.map_eq_nil_iff] using hne
        · simpa [List.length_pos] using hne
  · intro docs r h
    obtain ⟨h1, h2⟩ := mergeGo_ok_pos docs [] 0 r rfl h
    refine ⟨?_, h2⟩
    rw [h1] at h2
    exact List.length_pos.mp h2

/-- C4 witness: concrete zero-page inputs fail with the empty-result
error, and concrete successes carry a positive page count. -/
theorem claim4_witness :
    extract_pages (.ok [7, 8]) [3, 0] = .error .emptyResult ∧
    merge_pdfs [.missing, .ok []] = .error .emptyResult ∧
    (([7] : List Nat) ≠ [] ∧ 0 < 1) ∧ (([5] : List Nat) ≠ [] ∧ 0 < 1) :=
  ⟨claim4_no_zero_page_output.1 [7, 8] [3, 0] (by decide),
   claim4_no_zero_page_output.2.1 [.missing, .ok []] (by decide),
   claim4_no_zero_page_output.2.2.1 (.ok [7]) [1] ([7], 1) rfl,
   claim4_no_zero_page_output.2.2.2 [.ok [5]] ([5], 1) rfl⟩

/-- C5: resolved page indices outside [1, totalPages] are silently
dropped and the in-bounds ones are kept in order — `extract_pages`
returns exactly the in-bounds selection (or the empty-result error when
nothing survives) — and extracting "1-9999" from any 5-page document
copies exactly pages 1 through 5. -/
theorem claim5_bounds_tolerance :
    (∀ (src : List Nat) (pages : List Int),
      extract_pages (.ok src) pages =
        if keptPages src.length pages = [] then .error .emptyResult
        else .ok ((keptPages src.length pages).map (pageAt src),
          (keptPages src.length pages).length)) ∧
    (∀ (ps : List Int) (a b c d e : Nat),
      parseSpec "1-9999" = .ok ps →
      extract_pages (.ok [a, b, c, d, e]) ps = .ok ([a, b, c, d, e], 5)) := by
  constructor
  · exact extract_pages_ok_eq
  · intro ps a b c d e hps
    simp only [parseSpec, parseSpecL_1_9999, Except.ok.injEq] at hps
    subst hps
    rw [extract_pages_ok_eq]
    have hk : keptPages ([a, b, c, d, e] : List Nat).length (pyRange 1 9999) =
        [1, 2, 3, 4, 5] := by
      have h5 : ([a, b, c, d, e] : List Nat).length = 5 := rfl
      rw [h5, keptPages_1_9999]
    rw [hk, if_neg (by decide)]
    rfl

/-- C5 witness: extracting "1-9999" from the 5-page document
[10, 20, 30, 40, 50]. -/
theorem claim5_witness :
    extract_pages (.ok [10, 20, 30, 40, 50]) (pyRange 1 9999) =
      .ok ([10, 20, 30, 40, 50], 5) :=
  claim5_bounds_tolerance.2 (pyRange 1 9999) 10 20 30 40 50 parseSpecL_1_9999

/-- C6: the parsed page list is deduplicated and strictly ascending, it is
independent of the order tokens appear in the input (parsing any
permutation of the same tokens yields the same list), and "5,1-2" yields
[1,2,5]. -/
theorem claim6_order_independent :
    (∀ (l : List Char) (pages : List Int), parseSpecL l = .ok pages →
      List.Sorted (· < ·) pages ∧ pages.Nodup) ∧
    (∀ (ts ts' : List (List Char)) (pages : List Int), ts.Perm ts' →
      parseTokensL ts = .ok pages → parseTokensL ts' = .ok pages) ∧
    parseSpec "5,1-2" = .ok [1, 2, 5] := by
  refine ⟨?_, ?_, by rfl⟩
  · intro l pages h
    have hs := parseSpecL_ok_sorted l pages h
    exact ⟨hs, hs.nodup⟩
  · intro ts ts' pages hperm hok
    exact parseTokensL_perm ts ts' hperm pages hok

/-- C6 witness: the token lists of "5,1-2" and "1-2,5" are permutations
of each other and parse to the same sorted deduplicated list. -/
theorem claim6_witness :
    (List.Sorted (· < ·) ([1, 2, 5] : List Int) ∧
      ([1, 2, 5] : List Int).Nodup) ∧
    parseTokensL [['1', '-', '2'], ['5']] = .ok [1, 2, 5] :=
  ⟨claim6_order_independent.1 "5,1-2".toList [1, 2, 5] (by rfl),
   claim6_order_independent.2.1 [['5'], ['1', '-', '2']]
     [['1', '-', '2'], ['5']] [1, 2, 5] (by decide) (by rfl)⟩

/-- C7: merging a batch of readable documents concatenates every page of
every document in batch order, then page order within each document, and
returns the total number of pages copied. -/
theorem claim7_merge_order :
    ∀ pls : List (List Nat), pls.flatten ≠ [] →
      merge_pdfs (pls.map .ok) = .ok (pls.flatten, pls.flatten.length) := by
  intro pls hne
  have hnc : PdfFile.corrupt ∉ pls.map PdfFile.ok := by
    intro hc
    rw [List.mem_map] at hc
    obtain ⟨l, _, h⟩ := hc
    cases h
  have hfp : (pls.map PdfFile.ok).map filePages = pls := by
    rw [List.map_map]
    have hco : filePages ∘ PdfFile.ok = id := by
      funext l
      rfl
    rw [hco, List.map_id]
  rw [merge_pdfs_no_corrupt _ hnc, hfp, if_neg hne]

/-- C7 witness: merging a 2-page A and a 3-page B yields a 5-page output
with A's pages first and total 5. -/
theorem claim7_witness :
    merge_pdfs [.ok [1, 2], .ok [3, 4, 5]] = .ok ([1, 2, 3, 4, 5], 5) :=
  claim7_merge_order [[1, 2], [3, 4, 5]] (by decide)

/-- C8: a page-spec containing a token that is neither a valid integer
nor a well-formed A-B range makes parsing fail with the malformed-token
ValueError, and the extract route then reports that failure without
performing any extraction. -/
theorem claim8_malformed_token :
    (∀ l t : List Char, t ∈ tokenizeL l → pyInt t = none →
      wellFormedRange t = false →
      parseSpecL l = .error .malformedToken) ∧
    (∀ req : ExtractRequest, req.hasFile = true → req.filename ≠ "" →
      allowed_file req.filename = true →
      (∃ t ∈ tokenizeL (pyStrip req.pagesInput.toList),
        pyInt t = none ∧ wellFormedRange t = false) →
      (extractRoute req).1 = .failed .malformedToken) := by
  constructor
  · exact parseSpecL_bad_token
  · intro req h1 h2 h3 hex
    obtain ⟨t, ht, hint, hrange⟩ := hex
    have hstrip : pyStrip req.pagesInput.toList ≠ [] := by
      intro h0
      rw [h0] at ht
      simp [tokenizeL, pyReplaceComma, pySplitWs, pySplitAux] at ht
    have hparse := parseSpecL_bad_token _ t ht hint hrange
    simp only [extractRoute]
    rw [if_neg (by rw [h1]; simp), if_neg h2, if_neg (by rw [h3]; simp),
      if_neg hstrip, hparse]

/-- C8 witness: "1-2-3" (ill-formed range) and "abc" (not an integer). -/
theorem claim8_witness :
    parseSpecL "1-2-3".toList = .error .malformedToken ∧
    (extractRoute ⟨true, "doc.pdf", "abc", .ok [1, 2, 3]⟩).1 =
      .failed .malformedToken :=
  ⟨claim8_malformed_token.1 "1-2-3".toList "1-2-3".toList (by decide)
     (by decide) (by decide),
   claim8_malformed_token.2 ⟨true, "doc.pdf", "abc", .ok [1, 2, 3]⟩ rfl
     (by decide) (by decide)
     ⟨"abc".toList, by decide, by decide, by decide⟩⟩

/-- C9: the accepted-extension check is case-insensitive and requires a
dot: a filename is accepted iff it contains '.' and the text after its
last '.' lowercases to "pdf"; "doc.PDF" is accepted and a bare "pdf" is
rejected. -/
theorem claim9_extension_check :
    (∀ f : String, allowed_file f = true ↔
      '.' ∈ f.toList ∧ pyLowerL (lastDotSuffix f.toList) = ['p', 'd', 'f']) ∧
    allowed_file "doc.PDF" = true ∧ allowed_file "pdf" = false :=
  ⟨allowed_file_iff, by decide, by decide⟩

/-- C9 witness: the equivalence applied to a mixed-case multi-dot name. -/
theorem claim9_witness : allowed_file "a.b.PdF" = true :=
  (claim9_extension_check.1 "a.b.PdF").mpr (by decide)

/-- C10: the page-spec tokenizer treats commas and whitespace
interchangeably and never produces empty tokens: leading, trailing, and
consecutive separators are ignored, and ",,1,  2," parses the same as
"1,2". -/
theorem claim10_tokenizer_separators :
    (∀ l : List Char, [] ∉ tokenizeL l) ∧
    (∀ (c : Char) (l : List Char), isSepChar c = true →
      tokenizeL (c :: l) = tokenizeL l) ∧
    (∀ (c : Char) (l : List Char), isSepChar c = true →
      tokenizeL (l ++ [c]) = tokenizeL l) ∧
    (∀ (c c' : Char) (l1 l2 : List Char), isSepChar c = true →
      isSepChar c' = true →
      tokenizeL (l1 ++ c :: c' :: l2) = tokenizeL (l1 ++ c :: l2)) ∧
    parseSpec ",,1,  2," = parseSpec "1,2" ∧
    parseSpec ",,1,  2," = .ok [1, 2] :=
  ⟨tokenizeL_ne_nil_tokens, tokenizeL_cons_sep, tokenizeL_append_sep,
   fun c c' l1 l2 h h' => tokenizeL_double_sep c c' l1 l2 h h',
   by rfl, by rfl⟩

/-- C10 witness: the separator laws at concrete inputs. -/
theorem claim10_witness :
    tokenizeL (',' :: "1".toList) = tokenizeL "1".toList ∧
    tokenizeL ("1".toList ++ [' ']) = tokenizeL "1".toList ∧
    tokenizeL ("1".toList ++ ',' :: ' ' :: "2".toList) =
      tokenizeL ("1".toList ++ ',' :: "2".toList) :=
  ⟨claim10_tokenizer_separators.2.1 ',' "1".toList (by decide),
   claim10_tokenizer_separators.2.2.1 ' ' "1".toList (by decide),
   claim10_tokenizer_separators.2.2.2.1 ',' ' ' "1".toList "2".toList
     (by decide) (by decide)⟩

end PdfApp
